import Mathlib

/-!
Shallow embedding of the Fair Developer Score (FDS) analytics pipeline of the
repository `Digital-Emissions/FairDeveloperScore`, together with theorems
settling the specification claims about it.

All numeric computations of the Python source (pandas / numpy over floats)
are embedded over `ℚ`, so that every arithmetic identity is exact.  Machine
strings are embedded as `String`, with the case-insensitive substring /
suffix matching of the source's regular expressions spelled out over
lower-cased character lists.
-/

namespace FDS

/-! ### Generic list helpers

`firstDedup` removes duplicates keeping the FIRST occurrence of each
element, which is the order produced by `pandas.Series.unique` and by a
Python `dict` keyed by first insertion. -/

def firstDedup [DecidableEq α] : List α → List α :=
  List.foldl (fun acc x => if x ∈ acc then acc else acc ++ [x]) []

/-! ### MAD-Z normalization
(`src/fds_webapp/dev_productivity/fds_algorithm/utils/mad_normalization.py`)

`npMedian` embeds `numpy.median`: sort, then middle element for odd length
and the mean of the two middle elements for even length.  `mad_z_score`
embeds the function of the same name with `median`/`mad` left to be
computed (the pipeline always calls it that way); `np.clip(z, -3, 3)` is
`max`/`min` over `ℚ`. -/

def insAsc (x : ℚ) : List ℚ → List ℚ
  | [] => [x]
  | h :: t => if x ≤ h then x :: h :: t else h :: insAsc x t

/-- Ascending sort of a list of rationals (the embedding of the sort inside
`numpy.median`; only the sorted order matters there, not stability). -/
def sortAsc (l : List ℚ) : List ℚ := l.foldr insAsc []

/-- Embeds `numpy.median`: sort, take the middle element (odd length) or the mean of
the two middle elements (even length).  The source never feeds it an empty
vector along the paths the claims exercise; `0` stands in for that case. -/
def npMedian (values : List ℚ) : ℚ :=
  let sorted := sortAsc values
  let n := values.length
  if n = 0 then 0
  else if n % 2 = 1 then sorted.getD (n / 2) 0
  else (sorted.getD (n / 2 - 1) 0 + sorted.getD (n / 2) 0) / 2

/-- Embeds `mad = np.median(np.abs(values - median))` from `mad_z_score`. -/
def madOf (values : List ℚ) : ℚ :=
  npMedian (values.map (fun x => |x - npMedian values|))

/-- Embeds `np.clip(z, -3, 3)`. -/
def clip3 (z : ℚ) : ℚ := min 3 (max (-3) z)

/-- Embedding of `mad_z_score` from
`src/fds_webapp/dev_productivity/fds_algorithm/utils/mad_normalization.py`
with `median` and `mad` computed internally (the pipeline always calls it
that way): if `mad = 0` return a zero vector, else
`clip((x - median) / (1.4826 * mad), -3, 3)` element-wise. -/
def mad_z_score (values : List ℚ) : List ℚ :=
  let median := npMedian values
  let mad := madOf values
  if mad = 0 then values.map (fun _ => 0)
  else values.map (fun x => clip3 ((x - median) / (14826 / 10000 * mad)))

/-! ### Preprocessor: noise detection and key paths
(`src/fds_webapp/dev_productivity/fds_algorithm/preprocessing/data_processor.py`)

The Python code works on raw strings: `dirs_touched` and `file_types` are
semicolon-joined strings, matched by case-insensitive regular expressions.
Every pattern in `_get_vendor_patterns` is either a plain substring match or
a `$`-anchored suffix match, so the embedding lower-cases the haystack
(`asciiLower`, the ASCII fragment of `str.lower` / `re.IGNORECASE`) and
performs infix/suffix tests over character lists. -/

def asciiLower (c : Char) : Char :=
  if 'A' ≤ c ∧ c ≤ 'Z' then Char.ofNat (c.toNat + 32) else c

def lowerChars (s : String) : List Char := s.data.map asciiLower

/-- Embeds `str.split(';')`: `"" ↦ [""]`, separators produce (possibly empty)
fields. -/
def splitSemi : List Char → List (List Char)
  | [] => [[]]
  | c :: t =>
      match splitSemi t with
      | [] => [[]]
      | r :: rs => if c = ';' then [] :: r :: rs else (c :: r) :: rs

/-- Embeds `str.strip()` on ASCII whitespace. -/
def trimChars (l : List Char) : List Char :=
  ((l.dropWhile Char.isWhitespace).reverse.dropWhile Char.isWhitespace).reverse

/-- Embeds `[d.strip() for d in dirs_touched.split(';') if d.strip()]`. -/
def parseDirs (s : String) : List (List Char) :=
  ((splitSemi s.data).map trimChars).filter (fun d => d ≠ [])

/-- Boolean substring test (`pattern in haystack` / `re.search` of a plain
pattern): the pattern is a prefix of some suffix of the haystack. -/
def isSubstring (p : List Char) : List Char → Bool
  | [] => p.isEmpty
  | h :: t => p.isPrefixOf (h :: t) || isSubstring p t

def substringPatterns : List (List Char) :=
  ["vendor/".data, "third_party/".data, "node_modules/".data, ".min.".data,
   "generated/".data, "build/".data, "dist/".data]

def suffixPatterns : List (List Char) :=
  [".lock".data, "package-lock.json".data, "yarn.lock".data, "cargo.lock".data]

/-- Whether any pattern of `_get_vendor_patterns` matches the string. -/
def vendorMatchStr (s : String) : Bool :=
  let h := lowerChars s
  substringPatterns.any (fun p => isSubstring p h) ||
    suffixPatterns.any (fun p => p.isSuffixOf h)

def whitespaceIndicators : List (List Char) :=
  ["format".data, "style".data, "indent".data, "whitespace".data, "spacing".data,
   "trailing".data, "cleanup".data, "lint".data, "prettier".data, "clang-format".data]

structure NoiseCfg where
  vendor_noise_factor : ℚ
  whitespace_noise_factor : ℚ

/-- the `_default_config` values `0.1` and `0.3`. -/
def defaultNoiseCfg : NoiseCfg := ⟨1 / 10, 3 / 10⟩

structure NoiseRow where
  dirs_touched : String
  file_types : String
  msg_subject : String
  insertions : ℕ
  deletions : ℕ

/-- vendor indicator: some vendor pattern matches `dirs_touched` or
`file_types`. -/
def vendorHit (row : NoiseRow) : Bool :=
  vendorMatchStr row.dirs_touched || vendorMatchStr row.file_types

/-- whitespace/format indicator: a whitespace word occurs in the lowered
`msg_subject`, `insertions + deletions > 50` and `|insertions − deletions| < 10`. -/
def wsHit (row : NoiseRow) : Bool :=
  whitespaceIndicators.any (fun p => isSubstring p (lowerChars row.msg_subject)) &&
    decide (50 < row.insertions + row.deletions) &&
    decide (((row.insertions : ℤ) - (row.deletions : ℤ)).natAbs < 10)

/-- Embedding of `DataProcessor.detect_noise`: collect the matching
down-weights and return `max(noise_factors) if noise_factors else 1.0`. -/
def detect_noise (cfg : NoiseCfg) (row : NoiseRow) : ℚ :=
  let noise_factors :=
    (if vendorHit row then [cfg.vendor_noise_factor] else []) ++
      (if wsHit row then [cfg.whitespace_noise_factor] else [])
  match noise_factors with
  | [] => 1
  | h :: t => t.foldl max h

/-- the `_get_key_directories` vocabulary. -/
def keyDirectories : List (List Char) :=
  ["kernel".data, "core".data, "src".data, "lib".data, "include".data,
   "drivers".data, "arch".data, "fs".data, "net".data, "security".data,
   "crypto".data, "mm".data, "ipc".data, "init".data, "api".data,
   "engine".data, "framework".data, "service".data, "controller".data,
   "model".data, "database".data, "config".data, "auth".data, "middleware".data]

def isKeyDir (d : List Char) : Bool := keyDirectories.contains (d.map asciiLower)

/-- Python `int()`: truncation toward zero. -/
def pyInt (q : ℚ) : ℤ := if 0 ≤ q then ⌊q⌋ else -⌊-q⌋

structure KeyPathRow where
  dirs_touched : String
  effective_churn : ℚ

/-- Embedding of `DataProcessor.detect_key_paths`: if some touched
directory is (case-insensitively) a key directory, return
`int(effective_churn * |key_dirs| / |dirs|)`, else 0. -/
def detect_key_paths (row : KeyPathRow) : ℤ :=
  if row.dirs_touched = "" then 0
  else
    let dirs := parseDirs row.dirs_touched
    let key_dirs := dirs.filter isKeyDir
    if key_dirs ≠ [] then
      pyInt (row.effective_churn * ((key_dirs.length : ℚ) / (dirs.length : ℚ)))
    else 0

/-! ### Effort scorer: per-batch share
(`src/fds_webapp/dev_productivity/fds_algorithm/effort_calculator/developer_effort.py`,
`DeveloperEffortCalculator.calculate_share`) -/

structure ShareRow where
  author_email : String
  effective_churn : ℚ

/-- Embeds `batch_total_churn = batch_df['effective_churn'].sum()`. -/
def batchTotalChurn (batch : List ShareRow) : ℚ :=
  (batch.map (·.effective_churn)).sum

/-- Embeds `author_churn = batch_df.groupby('author_email')['effective_churn'].sum()`
evaluated at one author. -/
def authorChurn (batch : List ShareRow) (a : String) : ℚ :=
  ((batch.filter (fun r => r.author_email = a)).map (·.effective_churn)).sum

/-- Embedding of `calculate_share`: the `share` column, in commit order.
If the batch churn is 0 every share is 0, else each commit carries its
author's churn divided by the batch churn. -/
def calculate_share (batch : List ShareRow) : List ℚ :=
  let total := batchTotalChurn batch
  if total = 0 then batch.map (fun _ => 0)
  else batch.map (fun r => authorChurn batch r.author_email / total)

/-! ### Importance scorer: batch skipping and broadcast
(`src/modules/fds_algorithm/importance_calculator/batch_importance.py`,
`BatchImportanceCalculator.process_all_batches`, lines 382–412)

The claim under scrutiny concerns only the skip condition and the
broadcast `df['batch_importance'] = df['batch_id'].map(...).fillna(0.0)`,
so the six-dimensional metric computation for the surviving batches is
abstracted as a parameter `impOf` (the theorem holds for every such
function). -/

structure ImpRow where
  batch_id : ℕ
  effective_churn : ℚ
  effort : ℚ

/-- Embeds `df[df['batch_id'] == batch_id]`. -/
def batchRows (df : List ImpRow) (b : ℕ) : List ImpRow :=
  df.filter (fun r => r.batch_id = b)

/-- Embeds `batch_df['effective_churn'].sum()`. -/
def batchChurnSum (df : List ImpRow) (b : ℕ) : ℚ :=
  ((batchRows df b).map (·.effective_churn)).sum

/-- The batch ids (in `df['batch_id'].unique()` order) that pass
`len(batch_df) >= 1 and batch_df['effective_churn'].sum() >= min_batch_churn`. -/
def survivingBatches (df : List ImpRow) (minChurn : ℚ) : List ℕ :=
  (firstDedup (df.map (·.batch_id))).filter
    (fun b => decide (1 ≤ (batchRows df b).length) && decide (minChurn ≤ batchChurnSum df b))

/-- Embedding of the broadcast step of `process_all_batches`: every row of
`df` is kept, paired with its batch's importance when the batch survives and
with `0.0` (the `fillna`) otherwise. -/
def process_all_batches_importance (df : List ImpRow) (minChurn : ℚ)
    (impOf : List ImpRow → ℚ) : List (ImpRow × ℚ) :=
  let surviving := survivingBatches df minChurn
  df.map (fun r =>
    (r, if r.batch_id ∈ surviving then impOf (batchRows df r.batch_id) else 0))

/-- Embeds `FDSCalculator.calculate_contributions`:
`contribution = (effort * batch_importance).clip(lower=0)`. -/
def calculate_contribution (effort importance : ℚ) : ℚ := max 0 (effort * importance)

/-! ### FDS aggregator
(`src/fds_webapp/dev_productivity/fds_algorithm/fds_calculator.py`,
`FDSCalculator.aggregate_contributions_by_author`)

Timestamps are integral seconds since the epoch (`ℤ`); `pd.to_datetime(ts,
unit='s')` and `timedelta(days=W)` are exact, so the window comparison is
over seconds.  `(end_date - start_date).days` is the floor of the span in
whole days.  `groupby('author_email')` sorts the group keys ascending;
`.agg(...).round(4)` rounds each numeric aggregate to 4 decimal places
(half-to-even, as `numpy.around`), leaving integral columns unchanged;
`sort_values('fds', ascending=False)` is embedded as a stable descending
sort on `fds` alone, which is what numpy's argsort performs on the small
frames at issue. -/

structure Row where
  author_email : String
  commit_ts : ℤ
  effort : ℚ
  batch_importance : ℚ
  effective_churn : ℚ
  files_changed : ℕ
  batch_id : ℕ

/-- per-commit `contribution = (effort * batch_importance).clip(lower=0)`. -/
def contribution (r : Row) : ℚ := calculate_contribution r.effort r.batch_importance

def listMinZ : List ℤ → ℤ
  | [] => 0
  | h :: t => t.foldl min h

def listMaxZ : List ℤ → ℤ
  | [] => 0
  | h :: t => t.foldl max h

/-- Embeds `end_date = df['commit_date'].max()`. -/
def endTs (rows : List Row) : ℤ := listMaxZ (rows.map (·.commit_ts))

/-- Embeds `start_date = df['commit_date'].min()`. -/
def startTs (rows : List Row) : ℤ := listMinZ (rows.map (·.commit_ts))

/-- Embeds `data_span_days = (end_date - start_date).days`: floor of the span in
whole days (the span is non-negative). -/
def dataSpanDays (rows : List Row) : ℤ := (endTs rows - startTs rows) / 86400

/-- The adaptive time-window selection: keep everything when
`data_span_days <= time_window_days or time_window_days >= 365`, else keep
commits with `commit_date >= end_date - timedelta(days=W)`. -/
def windowRows (W : ℕ) (rows : List Row) : List Row :=
  if dataSpanDays rows ≤ (W : ℤ) ∨ 365 ≤ W then rows
  else rows.filter (fun r => decide (endTs rows - (W : ℤ) * 86400 ≤ r.commit_ts))

/-- ascending insertion without duplicates: the sorted distinct group keys
of `groupby('author_email')`. -/
def insStr (x : String) : List String → List String
  | [] => [x]
  | h :: t => if x < h then x :: h :: t else if x = h then h :: t else h :: insStr x t

def sortedAuthors (rows : List Row) : List String :=
  (rows.map (·.author_email)).foldr insStr []

/-- Embeds `numpy.around` at a half-to-even tie. -/
def roundHalfEven (x : ℚ) : ℤ :=
  let f := ⌊x⌋
  if x - f < 1 / 2 then f
  else if 1 / 2 < x - f then f + 1
  else if f % 2 = 0 then f else f + 1

/-- Embeds `.round(4)`: round to 4 decimal places. -/
def round4 (x : ℚ) : ℚ := (roundHalfEven (x * 10000) : ℚ) / 10000

structure Entry where
  author_email : String
  fds : ℚ
  avg_effort : ℚ
  avg_importance : ℚ
  total_churn : ℚ
  total_files : ℕ
  unique_batches : ℕ
  first_commit : ℤ
  last_commit : ℤ
  commit_count : ℕ

def authorRows (rows : List Row) (a : String) : List Row :=
  rows.filter (fun r => r.author_email = a)

/-- One aggregated line of `author_metrics` after `.round(4)`: sums/means of
the author's rows, rounded where the column is fractional (the integral
columns `total_files`, `unique_batches`, `commit_count` and the commit
dates are unchanged by `round(4)`). -/
def mkEntry (rows : List Row) (a : String) : Entry :=
  let rs := authorRows rows a
  { author_email := a
    fds := round4 ((rs.map contribution).sum)
    avg_effort := round4 ((rs.map (·.effort)).sum / (rs.length : ℚ))
    avg_importance := round4 ((rs.map (·.batch_importance)).sum / (rs.length : ℚ))
    total_churn := round4 ((rs.map (·.effective_churn)).sum)
    total_files := (rs.map (·.files_changed)).sum
    unique_batches := (firstDedup (rs.map (·.batch_id))).length
    first_commit := listMinZ (rs.map (·.commit_ts))
    last_commit := listMaxZ (rs.map (·.commit_ts))
    commit_count := rs.length }

/-- stable descending insertion on the `fds` key alone
(`sort_values('fds', ascending=False)`). -/
def insByFds (x : Entry) : List Entry → List Entry
  | [] => [x]
  | h :: t => if h.fds ≤ x.fds then x :: h :: t else h :: insByFds x t

def sortByFdsDesc (l : List Entry) : List Entry := l.foldr insByFds []

/-- Embedding of `aggregate_contributions_by_author`: select the window,
aggregate per sorted author, round, drop `fds` below the threshold, sort
descending by `fds`. -/
def aggregate_contributions_by_author (W : ℕ) (thr : ℚ) (rows : List Row) : List Entry :=
  sortByFdsDesc
    (((sortedAuthors (windowRows W rows)).map (mkEntry (windowRows W rows))).filter
      (fun e => decide (thr ≤ e.fds)))

/-- Input for the C2 counterexample: author `a` with one commit of
contribution `1/2`, author `b` with two commits of contribution `1/4`
each, so both authors end with `fds = 1/2` but different commit counts. -/
def c2rows : List Row :=
  [⟨"a", 0, 1, 1 / 2, 10, 1, 0⟩,
   ⟨"b", 0, 1 / 2, 1 / 2, 10, 1, 0⟩,
   ⟨"b", 0, 1 / 2, 1 / 2, 10, 1, 0⟩]

/-! ### Torque clustering (`src/utils/custom_torque_clustering.py`)

The hierarchical merging loop of `torque_clustering` is embedded with
first-order state: `cluster_center` / `cluster_mass` dictionaries become
association lists, iterated in `cluster_ids` order exactly as the Python
loops do.  The union-find is represented by its root map (`root y` is what
`find_set(y)` returns; `parent[rb] = ra` becomes "redirect everything whose
root is `rb` to `ra`"), which returns the identical canonical
representatives without the pointer chasing.  `np.argmin`/`np.argmax`
return the FIRST extremal index, so folds replace the incumbent only on a
strict improvement.  `custom_distance_matrix` takes a square root that is
used only inside `argmin`, so the embedding compares the squared weighted
distances, which selects the same indices; `np.inf` on the diagonal is the
skipped case of the fold.  The while-loop runs on fuel `n`: every
iteration with a non-empty edge list merges at least two clusters, so `n`
iterations always suffice. -/

def lookupV (l : List (ℕ × List ℚ)) (k : ℕ) : List ℚ :=
  (l.find? (fun p => p.1 = k)).elim [] (·.2)

def lookupM (l : List (ℕ × ℚ)) (k : ℕ) : ℚ :=
  (l.find? (fun p => p.1 = k)).elim 0 (·.2)

/-- squared weighted distance `Σ_k (w_k (x_k − y_k))²` (the square of the
`np.linalg.norm` entry of `custom_distance_matrix`, and literally the
`dist_sq` of the torque value). -/
def wdistSq (w x y : List ℚ) : ℚ :=
  ((List.zipWith (fun wi d => wi * d) w (List.zipWith (fun a b => a - b) x y)).map
    (fun t => t ^ 2)).sum

/-- Embeds `np.argmin(dist_matrix, axis=1)` at one row, with `np.inf` on the
diagonal: first index `j ≠ idx` of minimal squared distance. -/
def nearestIdx (w : List ℚ) (centers : List (List ℚ)) (idx : ℕ) : ℕ :=
  let step := fun (best : Option (ℕ × ℚ)) (j : ℕ) =>
    if j = idx then best
    else
      match best with
      | none => some (j, wdistSq w (centers.getD idx []) (centers.getD j []))
      | some bd =>
          if wdistSq w (centers.getD idx []) (centers.getD j []) < bd.2 then
            some (j, wdistSq w (centers.getD idx []) (centers.getD j []))
          else some bd
  match (List.range centers.length).foldl step none with
  | some jd => jd.1
  | none => idx

def rootUpdate (root : ℕ → ℕ) (o n : ℕ) : ℕ → ℕ := fun y => if root y = o then n else root y

/-- Embeds `union_set`: merge the roots of `a` and `b`, the lighter root pointing
to the heavier (ties point `rb` to `ra`). -/
def unionByMass (masses : List (ℕ × ℚ)) (root : ℕ → ℕ) (a b : ℕ) : ℕ → ℕ :=
  if root a ≠ root b then
    if lookupM masses (root a) < lookupM masses (root b) then rootUpdate root (root a) (root b)
    else rootUpdate root (root b) (root a)
  else root

/-- the label-phase `uf_union`: `parent[rj] = ri`. -/
def finalUnion (root : ℕ → ℕ) (i j : ℕ) : ℕ → ℕ :=
  if root i ≠ root j then rootUpdate root (root j) (root i) else root

/-- a `connections` record `(tau_val, cid, nid)`. -/
structure Conn where
  tau : ℚ
  cid : ℕ
  nid : ℕ

/-- the `directed_edges` of one merging round: each cluster points at its
nearest neighbour, kept when its mass does not exceed the neighbour's. -/
def directedEdges (w : List ℚ) (ids : List ℕ) (centers : List (ℕ × List ℚ))
    (masses : List (ℕ × ℚ)) : List (ℕ × ℕ) :=
  (List.range ids.length).filterMap (fun idx =>
    if nearestIdx w (ids.map (lookupV centers)) idx = idx then none
    else
      if lookupM masses (ids.getD idx 0) ≤
          lookupM masses (ids.getD (nearestIdx w (ids.map (lookupV centers)) idx) 0) then
        some (ids.getD idx 0, ids.getD (nearestIdx w (ids.map (lookupV centers)) idx) 0)
      else none)

/-- fold the edges through `union_set`, appending
`(M·dist_sq, cid, nid)` to `connections` for each edge. -/
def mergeRoot (w : List ℚ) (centers : List (ℕ × List ℚ)) (masses : List (ℕ × ℚ))
    (edges : List (ℕ × ℕ)) : (ℕ → ℕ) × List Conn :=
  edges.foldl (fun st e =>
    (unionByMass masses st.1 e.1 e.2,
      st.2 ++ [⟨lookupM masses e.1 * lookupM masses e.2 *
        wdistSq w (lookupV centers e.1) (lookupV centers e.2), e.1, e.2⟩]))
    (id, [])

/-- One pass of the `while True` body: `None` encodes the
`if not directed_edges: break` exit; otherwise the merged ids (roots in
first-appearance order, as `dict` keys), mass-weighted mean centers, summed
masses, and the new `connections`. -/
def tcIter (w : List ℚ) (nfeat : ℕ) (ids : List ℕ) (centers : List (ℕ × List ℚ))
    (masses : List (ℕ × ℚ)) :
    Option (List ℕ × List (ℕ × List ℚ) × List (ℕ × ℚ) × List Conn) :=
  let edges := directedEdges w ids centers masses
  if edges.isEmpty then none
  else
    let root := (mergeRoot w centers masses edges).1
    let newIds := firstDedup (ids.map root)
    let newMasses := newIds.map (fun r =>
      (r, ((ids.filter (fun c => root c = r)).map (lookupM masses)).sum))
    some (newIds,
      newIds.map (fun r =>
        (r, (((ids.filter (fun c => root c = r)).map
              (fun c => (lookupV centers c).map (fun x => lookupM masses c * x))).foldl
            (fun acc v => List.zipWith (fun a b => a + b) acc v)
            (List.replicate nfeat 0)).map (fun x => x / lookupM newMasses r))),
      newMasses, (mergeRoot w centers masses edges).2)

def tcLoop (w : List ℚ) (nfeat : ℕ) :
    ℕ → List ℕ → List (ℕ × List ℚ) → List (ℕ × ℚ) → List Conn → List Conn
  | 0, _, _, _, conns => conns
  | fuel + 1, ids, centers, masses, conns =>
      if ids.length ≤ 1 then conns
      else
        match tcIter w nfeat ids centers masses with
        | none => conns
        | some (ids2, centers2, masses2, newConns) =>
            tcLoop w nfeat fuel ids2 centers2 masses2 (conns ++ newConns)

/-- the hierarchical merging phase of `torque_clustering`: all recorded
`connections`, starting from singleton clusters of mass 1. -/
def tcConns (X : List (List ℚ)) (w : List ℚ) : List Conn :=
  tcLoop w w.length X.length (List.range X.length)
    ((List.range X.length).map (fun i => (i, X.getD i [])))
    ((List.range X.length).map (fun i => (i, (1 : ℚ)))) []

/-- stable descending insertion on `tau`
(`connections.sort(key=..., reverse=True)`). -/
def insConn (x : Conn) : List Conn → List Conn
  | [] => [x]
  | h :: t => if h.tau ≤ x.tau then x :: h :: t else h :: insConn x t

def sortConnDesc (l : List Conn) : List Conn := l.foldr insConn []

/-- comparison of gap values, `none` standing for `float('inf')`. -/
def tgapGt : Option ℚ → Option ℚ → Bool
  | none, none => false
  | none, some _ => true
  | some _, none => false
  | some a, some b => decide (b < a)

/-- Embeds `np.argmax`: first index of the maximum (0 for an empty list). -/
def argmaxTgap (l : List (Option ℚ)) : ℕ :=
  (l.enum.foldl (fun (best : Option (ℕ × Option ℚ)) iv =>
    match best with
    | none => some iv
    | some b => if tgapGt iv.2 b.2 then some iv else some b) none).elim 0 (·.1)

/-- Embeds `tgap_values`: `tau[j] / tau[j+1]`, `inf` when the denominator is 0. -/
def tgapsOf (sorted : List Conn) : List (Option ℚ) :=
  (List.range (sorted.length - 1)).map (fun j =>
    if (sorted.map (·.tau)).getD (j + 1) 0 = 0 then none
    else some ((sorted.map (·.tau)).getD j 0 / (sorted.map (·.tau)).getD (j + 1) 0))

/-- the `cluster_map` relabelling: each root is replaced by the index of
its first appearance. -/
def denseLabels (roots : List ℕ) : List ℕ :=
  roots.map (fun r => (firstDedup roots).indexOf r)

/-- the label-assignment phase: `np.arange(n)` when no connections were
recorded, otherwise re-apply the merges from position
`optimal_clusters - 1 = argmax(tgap) + 1` on and relabel densely. -/
def assignLabels (n : ℕ) (conns : List Conn) : List ℕ :=
  if conns.isEmpty then List.range n
  else
    denseLabels ((List.range n).map
      (((sortConnDesc conns).drop (argmaxTgap (tgapsOf (sortConnDesc conns)) + 1)).foldl
        (fun p c => finalUnion p c.cid c.nid) id))

/-- Embedding of `torque_clustering(X, feature_weights)`. -/
def torque_clustering (X : List (List ℚ)) (w : List ℚ) : List ℕ :=
  assignLabels X.length (tcConns X w)

/-! ### Theorems -/

theorem firstDedup_go_nodup [DecidableEq α] (l : List α) (acc : List α) (hacc : acc.Nodup) :
    (List.foldl (fun acc x => if x ∈ acc then acc else acc ++ [x]) acc l).Nodup := by
  induction l generalizing acc with
  | nil => simpa using hacc
  | cons x t ih =>
      simp only [List.foldl_cons]
      by_cases hx : x ∈ acc
      · rw [if_pos hx]
        exact ih acc hacc
      · rw [if_neg hx]
        refine ih (acc ++ [x]) ?_
        simp [List.nodup_append, hacc, hx]

theorem firstDedup_nodup [DecidableEq α] (l : List α) : (firstDedup l).Nodup :=
  firstDedup_go_nodup l [] (by simp)

theorem firstDedup_go_mem [DecidableEq α] (l : List α) (acc : List α) (y : α) :
    y ∈ List.foldl (fun acc x => if x ∈ acc then acc else acc ++ [x]) acc l ↔
      y ∈ acc ∨ y ∈ l := by
  induction l generalizing acc with
  | nil => simp
  | cons x t ih =>
      simp only [List.foldl_cons]
      by_cases hx : x ∈ acc
      · rw [if_pos hx, ih]
        constructor
        · rintro (h | h)
          · exact Or.inl h
          · exact Or.inr (List.mem_cons_of_mem _ h)
        · rintro (h | h)
          · exact Or.inl h
          · rcases List.mem_cons.mp h with rfl | h
            · exact Or.inl hx
            · exact Or.inr h
      · rw [if_neg hx, ih]
        simp only [List.mem_append, List.mem_singleton, List.mem_cons]
        tauto

theorem firstDedup_mem [DecidableEq α] (l : List α) (y : α) :
    y ∈ firstDedup l ↔ y ∈ l := by
  unfold firstDedup
  rw [firstDedup_go_mem]
  simp

theorem firstDedup_go_length [DecidableEq α] (l : List α) (acc : List α) :
    (List.foldl (fun acc x => if x ∈ acc then acc else acc ++ [x]) acc l).length ≤
      acc.length + l.length := by
  induction l generalizing acc with
  | nil => simp
  | cons x t ih =>
      simp only [List.foldl_cons]
      by_cases hx : x ∈ acc
      · rw [if_pos hx]
        calc _ ≤ acc.length + t.length := ih acc
        _ ≤ acc.length + (x :: t).length := by simp [List.length_cons]
      · rw [if_neg hx]
        calc _ ≤ (acc ++ [x]).length + t.length := ih _
        _ = acc.length + (x :: t).length := by
            simp [List.length_append, List.length_cons]
            omega

theorem firstDedup_length_le [DecidableEq α] (l : List α) :
    (firstDedup l).length ≤ l.length := by
  have := firstDedup_go_length l ([] : List α)
  simpa [firstDedup] using this

theorem insAsc_length (x : ℚ) (l : List ℚ) : (insAsc x l).length = l.length + 1 := by
  induction l with
  | nil => rfl
  | cons h t ih =>
      unfold insAsc
      by_cases hx : x ≤ h
      · rw [if_pos hx]
        rfl
      · rw [if_neg hx]
        simp [List.length_cons, ih]

theorem sortAsc_length (l : List ℚ) : (sortAsc l).length = l.length := by
  induction l with
  | nil => rfl
  | cons h t ih =>
      show (insAsc h (sortAsc t)).length = t.length + 1
      rw [insAsc_length, ih]

theorem insAsc_forall (x : ℚ) (l : List ℚ) (p : ℚ → Prop) (hx : p x) (hl : ∀ y ∈ l, p y) :
    ∀ y ∈ insAsc x l, p y := by
  induction l with
  | nil =>
      intro y hy
      rcases List.mem_singleton.mp hy with rfl
      exact hx
  | cons h t ih =>
      unfold insAsc
      by_cases hle : x ≤ h
      · rw [if_pos hle]
        intro y hy
        rcases List.mem_cons.mp hy with rfl | hy
        · exact hx
        · exact hl y hy
      · rw [if_neg hle]
        intro y hy
        rcases List.mem_cons.mp hy with rfl | hy
        · exact hl y (List.mem_cons_self _ _)
        · exact ih (fun y hy => hl y (List.mem_cons_of_mem _ hy)) y hy

theorem sortAsc_forall (l : List ℚ) (p : ℚ → Prop) (hl : ∀ y ∈ l, p y) :
    ∀ y ∈ sortAsc l, p y := by
  induction l with
  | nil => simp [sortAsc]
  | cons h t ih =>
      exact insAsc_forall h (sortAsc t) p (hl h (List.mem_cons_self _ _))
        (ih fun y hy => hl y (List.mem_cons_of_mem _ hy))

theorem clip3_ge (z : ℚ) : -3 ≤ clip3 z := by
  unfold clip3
  rcases le_total 3 (max (-3) z) with h | h
  · simp [min_eq_left h]
  · rw [min_eq_right h]
    exact le_max_left _ _

theorem clip3_le (z : ℚ) : clip3 z ≤ 3 := min_le_left _ _

theorem npMedian_const (l : List ℚ) (c : ℚ) (hne : l ≠ []) (h : ∀ x ∈ l, x = c) :
    npMedian l = c := by
  unfold npMedian
  have hlen : (sortAsc l).length = l.length := sortAsc_length l
  have hall : ∀ x ∈ sortAsc l, x = c := sortAsc_forall l _ h
  have hn : l.length ≠ 0 := by simpa [List.length_eq_zero] using hne
  have hget : ∀ i, i < l.length → (sortAsc l).getD i 0 = c := by
    intro i hi
    rw [List.getD_eq_getElem _ _ (by omega : i < (sortAsc l).length)]
    exact hall _ (List.getElem_mem _)
  rcases Nat.even_or_odd l.length with he | ho
  · have h2 : l.length % 2 = 0 := Nat.even_iff.mp he
    rw [if_neg hn, if_neg (by omega)]
    rw [hget _ (by omega), hget _ (by omega)]
    ring
  · have h2 : l.length % 2 = 1 := Nat.odd_iff.mp ho
    rw [if_neg hn, if_pos h2, hget _ (by omega)]

theorem madOf_const (l : List ℚ) (c : ℚ) (h : l = List.replicate l.length c) :
    madOf l = 0 := by
  by_cases hne : l = []
  · subst hne
    simp [madOf, npMedian]
  · have hmemc : ∀ x ∈ l, x = c := by
      intro x hx
      rw [h] at hx
      exact List.eq_of_mem_replicate hx
    have hmed : npMedian l = c := npMedian_const l c hne hmemc
    unfold madOf
    rw [hmed]
    refine npMedian_const _ 0 (by simpa using hne) ?_
    intro x hx
    rcases List.mem_map.mp hx with ⟨y, hy, rfl⟩
    rw [hmemc y hy]
    simp

/-- C5: `mad_z_score` returns `clip((x − median) / (1.4826·MAD), −3, 3)`
element-wise whenever `MAD ≠ 0`; every output value lies in `[−3, 3]`; when
`MAD = 0` (in particular for a constant input vector) the output is exactly
the zero vector. -/
theorem mad_z_score_spec (v : List ℚ) :
    (madOf v ≠ 0 →
      mad_z_score v = v.map (fun x => clip3 ((x - npMedian v) / (14826 / 10000 * madOf v)))) ∧
    (∀ z ∈ mad_z_score v, -3 ≤ z ∧ z ≤ 3) ∧
    (madOf v = 0 → mad_z_score v = List.replicate v.length 0) ∧
    (∀ c, v = List.replicate v.length c → mad_z_score v = List.replicate v.length 0) := by
  have hzero : madOf v = 0 → mad_z_score v = List.replicate v.length 0 := by
    intro h0
    unfold mad_z_score
    rw [if_pos h0]
    exact List.map_const' v 0
  refine ⟨?_, ?_, hzero, ?_⟩
  · intro hmad
    unfold mad_z_score
    rw [if_neg hmad]
  · intro z hz
    unfold mad_z_score at hz
    by_cases h0 : madOf v = 0
    · rw [if_pos h0] at hz
      rcases List.mem_map.mp hz with ⟨y, _, rfl⟩
      norm_num
    · rw [if_neg h0] at hz
      rcases List.mem_map.mp hz with ⟨y, _, rfl⟩
      exact ⟨clip3_ge _, clip3_le _⟩
  · intro c hc
    exact hzero (madOf_const v c hc)

/-- Witness for C5: the element `5000/7413` of `mad_z_score [0,1,2]` lies in
`[−3,3]`, and a constant vector normalizes to the zero vector. -/
theorem mad_z_score_spec_witness :
    (-3 ≤ (5000 / 7413 : ℚ) ∧ (5000 / 7413 : ℚ) ≤ 3) ∧
      mad_z_score (List.replicate 3 (7 : ℚ)) = List.replicate 3 0 :=
  ⟨(mad_z_score_spec [0, 1, 2]).2.1 _
      (by norm_num [mad_z_score, madOf, npMedian, sortAsc, insAsc, clip3]),
    (mad_z_score_spec (List.replicate 3 (7 : ℚ))).2.2.2 7 (by norm_num)⟩

/-- C1 counterexample: a commit matching both the vendor indicator
(`dirs_touched = "vendor/pkg"`) and the whitespace indicator
(`msg_subject = "style cleanup"`, `insertions = 60`, `deletions = 55`) gets
noise factor `0.3 = max(0.1, 0.3)`, not the smallest matching down-weight
`0.1` asserted by the claim. -/
theorem detect_noise_counterexample :
    detect_noise defaultNoiseCfg ⟨"vendor/pkg", "", "style cleanup", 60, 55⟩ = 3 / 10 ∧
      (3 / 10 : ℚ) ≠ 1 / 10 := by
  constructor
  · have hv : vendorHit ⟨"vendor/pkg", "", "style cleanup", 60, 55⟩ = true := by decide
    have hw : wsHit ⟨"vendor/pkg", "", "style cleanup", 60, 55⟩ = true := by decide
    simp only [detect_noise, hv, hw, if_pos, defaultNoiseCfg, List.cons_append,
      List.nil_append, List.foldl_cons, List.foldl_nil]
    norm_num
  · norm_num

/-- C1 (amended): `detect_noise` starts from an empty list of matching
down-weights and returns their LARGEST member (`max(noise_factors)`), or 1.0
when no indicator matches.  With the default config: both indicators → 0.3,
vendor only → 0.1, whitespace only → 0.3, none → 1.0. -/
theorem detect_noise_spec (row : NoiseRow) :
    (vendorHit row = true ∧ wsHit row = true → detect_noise defaultNoiseCfg row = 3 / 10) ∧
    (vendorHit row = true ∧ wsHit row = false → detect_noise defaultNoiseCfg row = 1 / 10) ∧
    (vendorHit row = false ∧ wsHit row = true → detect_noise defaultNoiseCfg row = 3 / 10) ∧
    (vendorHit row = false ∧ wsHit row = false → detect_noise defaultNoiseCfg row = 1) := by
  refine ⟨?_, ?_, ?_, ?_⟩ <;> rintro ⟨h1, h2⟩ <;>
    (simp only [detect_noise, h1, h2, defaultNoiseCfg, if_true, if_false,
      Bool.false_eq_true, List.cons_append, List.nil_append, List.append_nil,
      List.foldl_cons, List.foldl_nil]; try norm_num)

/-- Witness for C1 (amended): vendor-only and no-indicator commits. -/
theorem detect_noise_spec_witness :
    detect_noise defaultNoiseCfg ⟨"vendor/pkg", "", "routine work", 3, 1⟩ = 1 / 10 ∧
      detect_noise defaultNoiseCfg ⟨"docs", "", "typo", 1, 0⟩ = 1 :=
  ⟨(detect_noise_spec ⟨"vendor/pkg", "", "routine work", 3, 1⟩).2.1 ⟨by decide, by decide⟩,
    (detect_noise_spec ⟨"docs", "", "typo", 1, 0⟩).2.2.2 ⟨by decide, by decide⟩⟩

/-- C8 counterexample: for `dirs_touched = "src;foo"` and
`effective_churn = 3`, the code truncates `3 · (1/2) = 1.5` to `1`
(Python `int()`), while the claim's "rounded to integer" gives `2`. -/
theorem detect_key_paths_counterexample :
    detect_key_paths ⟨"src;foo", 3⟩ = 1 ∧
      round ((3 : ℚ) * ((((parseDirs "src;foo").filter isKeyDir).length : ℚ) /
        ((parseDirs "src;foo").length : ℚ))) = (2 : ℤ) ∧
      (1 : ℤ) ≠ (2 : ℤ) := by
  refine ⟨?_, ?_, by norm_num⟩
  · simp +decide only [detect_key_paths]
    norm_num [pyInt, show (List.filter isKeyDir (parseDirs "src;foo")).length = 1 from by decide,
      show (parseDirs "src;foo").length = 2 from by decide]
  · norm_num [round_eq, show (List.filter isKeyDir (parseDirs "src;foo")).length = 1 from by decide,
      show (parseDirs "src;foo").length = 2 from by decide]

/-- C8 (amended): when at least one touched directory is
(case-insensitively) in the `KEY_DIRS` vocabulary, `key_path_lines` equals
`effective_churn × (|dirs ∩ KEY_DIRS| / |dirs|)` TRUNCATED to an integer
(`int()`, i.e. `⌊·⌋` for the non-negative churn of the pipeline), and 0
otherwise. -/
theorem detect_key_paths_spec (row : KeyPathRow) (hchurn : 0 ≤ row.effective_churn) :
    ((parseDirs row.dirs_touched).filter isKeyDir ≠ [] →
      detect_key_paths row =
        ⌊row.effective_churn * ((((parseDirs row.dirs_touched).filter isKeyDir).length : ℚ) /
          ((parseDirs row.dirs_touched).length : ℚ))⌋) ∧
    ((parseDirs row.dirs_touched).filter isKeyDir = [] → detect_key_paths row = 0) := by
  constructor
  · intro hne
    have hstr : row.dirs_touched ≠ "" := by
      intro h0
      apply hne
      rw [h0]
      decide
    have hprop : (0 : ℚ) ≤
        (((parseDirs row.dirs_touched).filter isKeyDir).length : ℚ) /
          ((parseDirs row.dirs_touched).length : ℚ) :=
      div_nonneg (Nat.cast_nonneg _) (Nat.cast_nonneg _)
    simp only [detect_key_paths, if_neg hstr, if_pos hne, pyInt,
      if_pos (mul_nonneg hchurn hprop), ne_eq]
  · intro hnil
    by_cases hstr : row.dirs_touched = ""
    · simp [detect_key_paths, hstr]
    · simp [detect_key_paths, hstr, hnil]

/-- Witness for C8 (amended): `"src;foo"` with churn 3 gives `⌊1.5⌋ = 1`. -/
theorem detect_key_paths_spec_witness :
    (0 : ℚ) ≤ 3 ∧ detect_key_paths ⟨"src;foo", 3⟩ = 1 := by
  refine ⟨by norm_num, ?_⟩
  have h := (detect_key_paths_spec ⟨"src;foo", 3⟩ (by norm_num)).1 (by decide)
  rw [h]
  norm_num [show (List.filter isKeyDir (parseDirs "src;foo")).length = 1 from by decide,
    show (parseDirs "src;foo").length = 2 from by decide]

theorem list_sum_map_add (l : List α) (f g : α → ℚ) :
    (l.map (fun a => f a + g a)).sum = (l.map f).sum + (l.map g).sum := by
  induction l with
  | nil => simp
  | cons h t ih =>
      simp only [List.map_cons, List.sum_cons, ih]
      ring

theorem list_sum_map_div (l : List α) (f : α → ℚ) (c : ℚ) :
    (l.map (fun a => f a / c)).sum = (l.map f).sum / c := by
  induction l with
  | nil => simp
  | cons h t ih =>
      simp only [List.map_cons, List.sum_cons, ih]
      ring

theorem list_sum_ite_eq (as : List String) (hnd : as.Nodup) (k : String) (hk : k ∈ as)
    (v : ℚ) : (as.map (fun a => if k = a then v else 0)).sum = v := by
  induction as with
  | nil => cases hk
  | cons h t ih =>
      rcases List.mem_cons.mp hk with rfl | hkt
      · have hnotin : k ∉ t := (List.nodup_cons.mp hnd).1
        have hz : (t.map (fun a => if k = a then v else 0)).sum = 0 := by
          refine List.sum_eq_zero ?_
          intro x hx
          rcases List.mem_map.mp hx with ⟨a, ha, rfl⟩
          rw [if_neg]
          intro h
          exact hnotin (h ▸ ha)
        simp only [List.map_cons, List.sum_cons, hz, add_zero]
        simp
      · have hne : k ≠ h := by
          intro h0
          exact (List.nodup_cons.mp hnd).1 (h0 ▸ hkt)
        simp only [List.map_cons, List.sum_cons, if_neg hne, zero_add]
        exact ih (List.nodup_cons.mp hnd).2 hkt

theorem sum_authorChurn (batch : List ShareRow) (as : List String) (hnd : as.Nodup)
    (hcover : ∀ r ∈ batch, r.author_email ∈ as) :
    (as.map (fun a => authorChurn batch a)).sum = batchTotalChurn batch := by
  induction batch with
  | nil =>
      simp only [batchTotalChurn, List.map_nil, List.sum_nil]
      refine List.sum_eq_zero ?_
      intro x hx
      rcases List.mem_map.mp hx with ⟨a, _, rfl⟩
      simp [authorChurn]
  | cons r t ih =>
      have hsplit : ∀ a, authorChurn (r :: t) a =
          (if r.author_email = a then r.effective_churn else 0) + authorChurn t a := by
        intro a
        unfold authorChurn
        rw [List.filter_cons]
        by_cases h : r.author_email = a
        · simp [h]
        · simp [h]
      calc (as.map (fun a => authorChurn (r :: t) a)).sum
          = (as.map (fun a =>
              (if r.author_email = a then r.effective_churn else 0) + authorChurn t a)).sum := by
            congr 1
            exact List.map_congr_left (fun a _ => hsplit a)
        _ = (as.map (fun a => if r.author_email = a then r.effective_churn else 0)).sum +
              (as.map (fun a => authorChurn t a)).sum := list_sum_map_add _ _ _
        _ = r.effective_churn + batchTotalChurn t := by
            rw [list_sum_ite_eq as hnd _ (hcover r (List.mem_cons_self _ _)),
              ih fun x hx => hcover x (List.mem_cons_of_mem _ hx)]
        _ = batchTotalChurn (r :: t) := by
            simp [batchTotalChurn]

/-- C4: in `calculate_share`, when the batch's total effective churn is
positive the shares of the batch's distinct authors sum to 1, each commit's
share being its author's churn over the batch churn; when the total is 0
every commit's share is 0. -/
theorem calculate_share_spec (batch : List ShareRow) :
    (0 < batchTotalChurn batch →
      ((firstDedup (batch.map (·.author_email))).map
          (fun a => authorChurn batch a / batchTotalChurn batch)).sum = 1 ∧
        calculate_share batch =
          batch.map (fun r => authorChurn batch r.author_email / batchTotalChurn batch)) ∧
    (batchTotalChurn batch = 0 → ∀ s ∈ calculate_share batch, s = 0) := by
  constructor
  · intro hpos
    have hne : batchTotalChurn batch ≠ 0 := ne_of_gt hpos
    constructor
    · rw [list_sum_map_div]
      rw [sum_authorChurn batch _ (firstDedup_nodup _) ?_]
      · exact div_self hne
      · intro r hr
        rw [firstDedup_mem]
        exact List.mem_map.mpr ⟨r, hr, rfl⟩
    · unfold calculate_share
      rw [if_neg hne]
  · intro h0 s hs
    unfold calculate_share at hs
    rw [if_pos h0] at hs
    rcases List.mem_map.mp hs with ⟨r, _, rfl⟩
    rfl

/-- Witness for C4: two authors with churn 2 each; shares sum to 1. -/
theorem calculate_share_spec_witness :
    0 < batchTotalChurn [⟨"a", 2⟩, ⟨"b", 2⟩] ∧
      ((firstDedup (([⟨"a", 2⟩, ⟨"b", 2⟩] : List ShareRow).map (·.author_email))).map
          (fun a => authorChurn [⟨"a", 2⟩, ⟨"b", 2⟩] a /
            batchTotalChurn [⟨"a", 2⟩, ⟨"b", 2⟩])).sum = 1 :=
  ⟨by norm_num [batchTotalChurn],
    ((calculate_share_spec [⟨"a", 2⟩, ⟨"b", 2⟩]).1 (by norm_num [batchTotalChurn])).1⟩

/-- C9: `process_all_batches` keeps every commit of the input stream in
the output (first components = input stream), and every commit whose batch
is skipped (including the case where no batch survives) appears with
`batch_importance = 0.0`, so its contribution in the aggregator is 0. -/
theorem process_all_batches_importance_spec (df : List ImpRow) (minChurn : ℚ)
    (impOf : List ImpRow → ℚ) :
    ((process_all_batches_importance df minChurn impOf).map (·.1) = df) ∧
    (∀ r ∈ df, r.batch_id ∉ survivingBatches df minChurn →
      (r, (0 : ℚ)) ∈ process_all_batches_importance df minChurn impOf ∧
        calculate_contribution r.effort 0 = 0) := by
  constructor
  · unfold process_all_batches_importance
    rw [List.map_map]
    exact List.map_id _
  · intro r hr hskip
    constructor
    · unfold process_all_batches_importance
      refine List.mem_map.mpr ⟨r, hr, ?_⟩
      rw [if_neg hskip]
    · unfold calculate_contribution
      rw [mul_zero, max_self]

/-- Witness for C9: a single commit with zero churn; its batch misses
`min_batch_churn = 1`, so the commit survives with importance 0 and
contribution 0. -/
theorem process_all_batches_importance_spec_witness :
    ((⟨0, 0, 5⟩ : ImpRow), (0 : ℚ)) ∈
        process_all_batches_importance [⟨0, 0, 5⟩] 1 (fun _ => 37) ∧
      calculate_contribution (5 : ℚ) 0 = 0 := by
  have hchurn : decide ((1 : ℚ) ≤ batchChurnSum [⟨0, 0, 5⟩] 0) = false := by
    rw [decide_eq_false_iff_not]
    norm_num [batchChurnSum, batchRows]
  have hskip : (0 : ℕ) ∉ survivingBatches [⟨0, 0, 5⟩] 1 := by
    unfold survivingBatches
    simp [firstDedup, hchurn]
  have h := (process_all_batches_importance_spec [⟨0, 0, 5⟩] 1 (fun _ => 37)).2
    ⟨0, 0, 5⟩ (List.mem_singleton.mpr rfl) hskip
  exact h

theorem insByFds_mem (x : Entry) (l : List Entry) (y : Entry) :
    y ∈ insByFds x l ↔ y = x ∨ y ∈ l := by
  induction l with
  | nil => simp [insByFds]
  | cons h t ih =>
      unfold insByFds
      by_cases hc : h.fds ≤ x.fds
      · rw [if_pos hc]
        simp [List.mem_cons]
      · rw [if_neg hc]
        simp only [List.mem_cons, ih]
        tauto

theorem sortByFdsDesc_mem (l : List Entry) (y : Entry) :
    y ∈ sortByFdsDesc l ↔ y ∈ l := by
  induction l with
  | nil => simp [sortByFdsDesc]
  | cons h t ih =>
      show y ∈ insByFds h (sortByFdsDesc t) ↔ _
      rw [insByFds_mem, ih]
      simp [List.mem_cons]

theorem insByFds_map_sum (f : Entry → ℚ) (x : Entry) (l : List Entry) :
    ((insByFds x l).map f).sum = f x + (l.map f).sum := by
  induction l with
  | nil => simp [insByFds]
  | cons h t ih =>
      unfold insByFds
      by_cases hc : h.fds ≤ x.fds
      · rw [if_pos hc]
        simp [List.map_cons, List.sum_cons]
      · rw [if_neg hc]
        simp only [List.map_cons, List.sum_cons, ih]
        ring

theorem sortByFdsDesc_map_sum (f : Entry → ℚ) (l : List Entry) :
    ((sortByFdsDesc l).map f).sum = (l.map f).sum := by
  induction l with
  | nil => rfl
  | cons h t ih =>
      show ((insByFds h (sortByFdsDesc t)).map f).sum = _
      rw [insByFds_map_sum, ih]
      simp

theorem insByFds_pairwise (S : Entry → Entry → Prop) (x : Entry) (m : List Entry)
    (hm : m.Pairwise (fun a b => b.fds < a.fds ∨ (a.fds = b.fds ∧ S a b)))
    (hall : ∀ y ∈ m, S x y) :
    (insByFds x m).Pairwise (fun a b => b.fds < a.fds ∨ (a.fds = b.fds ∧ S a b)) := by
  induction m with
  | nil => simp [insByFds]
  | cons h t ih =>
      rcases List.pairwise_cons.mp hm with ⟨hh, ht⟩
      unfold insByFds
      by_cases hc : h.fds ≤ x.fds
      · rw [if_pos hc]
        refine List.pairwise_cons.mpr ⟨?_, hm⟩
        intro y hy
        have hyle : y.fds ≤ x.fds := by
          rcases List.mem_cons.mp hy with rfl | hyt
          · exact hc
          · rcases hh y hyt with hlt | ⟨heq, _⟩
            · exact le_trans (le_of_lt hlt) hc
            · exact le_trans (le_of_eq heq.symm) hc
        rcases lt_or_eq_of_le hyle with hlt | heq
        · exact Or.inl hlt
        · exact Or.inr ⟨heq.symm, hall y hy⟩
      · rw [if_neg hc]
        push_neg at hc
        refine List.pairwise_cons.mpr ⟨?_, ih ht fun y hy => hall y (List.mem_cons_of_mem _ hy)⟩
        intro y hy
        rcases (insByFds_mem x t y).mp hy with rfl | hyt
        · exact Or.inl hc
        · exact hh y hyt

theorem sortByFdsDesc_pairwise (S : Entry → Entry → Prop) (l : List Entry)
    (hl : l.Pairwise S) :
    (sortByFdsDesc l).Pairwise (fun a b => b.fds < a.fds ∨ (a.fds = b.fds ∧ S a b)) := by
  induction l with
  | nil => simp [sortByFdsDesc]
  | cons h t ih =>
      rcases List.pairwise_cons.mp hl with ⟨hh, ht⟩
      show (insByFds h (sortByFdsDesc t)).Pairwise _
      refine insByFds_pairwise S h (sortByFdsDesc t) (ih ht) ?_
      intro y hy
      exact hh y ((sortByFdsDesc_mem t y).mp hy)

theorem insStr_mem (x : String) (l : List String) (y : String) :
    y ∈ insStr x l ↔ y = x ∨ y ∈ l := by
  induction l with
  | nil => simp [insStr]
  | cons h t ih =>
      unfold insStr
      rcases lt_trichotomy x h with hc | hc | hc
      · rw [if_pos hc]
        simp [List.mem_cons]
      · rw [if_neg (by simp [hc]), if_pos hc]
        subst hc
        simp only [List.mem_cons]
        tauto
      · rw [if_neg (by exact not_lt_of_gt hc), if_neg (by exact ne_of_gt hc)]
        simp only [List.mem_cons, ih]
        tauto

theorem insStr_pairwise (x : String) (l : List String)
    (hl : l.Pairwise (· < ·)) : (insStr x l).Pairwise (· < ·) := by
  induction l with
  | nil => simp [insStr]
  | cons h t ih =>
      rcases List.pairwise_cons.mp hl with ⟨hh, ht⟩
      unfold insStr
      rcases lt_trichotomy x h with hc | hc | hc
      · rw [if_pos hc]
        refine List.pairwise_cons.mpr ⟨?_, hl⟩
        intro y hy
        rcases List.mem_cons.mp hy with rfl | hyt
        · exact hc
        · exact lt_trans hc (hh y hyt)
      · rw [if_neg (by simp [hc]), if_pos hc]
        exact hl
      · rw [if_neg (by exact not_lt_of_gt hc), if_neg (by exact ne_of_gt hc)]
        refine List.pairwise_cons.mpr ⟨?_, ih ht⟩
        intro y hy
        rcases (insStr_mem x t y).mp hy with rfl | hyt
        · exact hc
        · exact hh y hyt

theorem sortedAuthors_pairwise (rows : List Row) :
    (sortedAuthors rows).Pairwise (· < ·) := by
  unfold sortedAuthors
  induction rows.map (·.author_email) with
  | nil => simp
  | cons h t ih => exact insStr_pairwise h _ ih

/-- C6 counterexample: two commits 90 days and one hour apart, `W = 90`.
The exact span exceeds `W` days and `W < 365`, so the claim demands that
only commits with `commit_ts ≥ end − W·86400` are kept — which excludes the
first commit — yet the code keeps it, because `(end-start).days` floors the
span to 90 days. -/
theorem windowRows_counterexample :
    (⟨"a", 0, 0, 0, 0, 0, 0⟩ : Row) ∈
        windowRows 90 [⟨"a", 0, 0, 0, 0, 0, 0⟩, ⟨"b", 7779600, 0, 0, 0, 0, 0⟩] ∧
      (90 : ℤ) * 86400 <
        endTs [⟨"a", 0, 0, 0, 0, 0, 0⟩, ⟨"b", 7779600, 0, 0, 0, 0, 0⟩] -
          startTs [⟨"a", 0, 0, 0, 0, 0, 0⟩, ⟨"b", 7779600, 0, 0, 0, 0, 0⟩] ∧
      (90 : ℕ) < 365 ∧
      Row.commit_ts ⟨"a", 0, 0, 0, 0, 0, 0⟩ <
        endTs [⟨"a", 0, 0, 0, 0, 0, 0⟩, ⟨"b", 7779600, 0, 0, 0, 0, 0⟩] - (90 : ℤ) * 86400 := by
  have hw : windowRows 90 [⟨"a", 0, 0, 0, 0, 0, 0⟩, ⟨"b", 7779600, 0, 0, 0, 0, 0⟩] =
      [⟨"a", 0, 0, 0, 0, 0, 0⟩, ⟨"b", 7779600, 0, 0, 0, 0, 0⟩] := by
    unfold windowRows dataSpanDays endTs startTs listMaxZ listMinZ
    norm_num
  refine ⟨?_, ?_, by norm_num, ?_⟩
  · rw [hw]
    exact List.mem_cons_self _ _
  · norm_num [endTs, startTs, listMaxZ, listMinZ]
  · norm_num [endTs, listMaxZ]

/-- C6 (amended): with `end = max(commit_ts)`, the aggregator keeps all
commits when `⌊span/86400⌋ ≤ W` (the span in WHOLE days, as
`(end-start).days` computes it) or `W ≥ 365`, and otherwise keeps exactly
the commits with `commit_ts ≥ end − W·86400`. -/
theorem windowRows_spec (rows : List Row) (W : ℕ) :
    ((dataSpanDays rows ≤ (W : ℤ) ∨ 365 ≤ W) → windowRows W rows = rows) ∧
    (¬(dataSpanDays rows ≤ (W : ℤ) ∨ 365 ≤ W) →
      ∀ r, r ∈ windowRows W rows ↔
        r ∈ rows ∧ endTs rows - (W : ℤ) * 86400 ≤ r.commit_ts) := by
  constructor
  · intro h
    unfold windowRows
    rw [if_pos h]
  · intro h r
    unfold windowRows
    rw [if_neg h, List.mem_filter]
    simp only [decide_eq_true_eq]

/-- Witness for C6 (amended): a floored span of exactly 90 days keeps all
commits; a 400-day span with `W = 90` keeps a commit inside the window. -/
theorem windowRows_spec_witness :
    windowRows 90 [⟨"a", 0, 0, 0, 0, 0, 0⟩, ⟨"b", 7779600, 0, 0, 0, 0, 0⟩] =
        [⟨"a", 0, 0, 0, 0, 0, 0⟩, ⟨"b", 7779600, 0, 0, 0, 0, 0⟩] ∧
      (⟨"b", 34560000, 0, 0, 0, 0, 0⟩ : Row) ∈
        windowRows 90 [⟨"a", 0, 0, 0, 0, 0, 0⟩, ⟨"b", 34560000, 0, 0, 0, 0, 0⟩] :=
  ⟨(windowRows_spec _ 90).1
      (by norm_num [dataSpanDays, endTs, startTs, listMaxZ, listMinZ]),
    (((windowRows_spec _ 90).2
        (by norm_num [dataSpanDays, endTs, startTs, listMaxZ, listMinZ]))
      ⟨"b", 34560000, 0, 0, 0, 0, 0⟩).mpr
      ⟨by simp, by norm_num [endTs, listMaxZ]⟩⟩

/-- C7 counterexample: a single author whose only commit contributes
`0.005 < 0.01`; the author is dropped by the contribution threshold, so the
aggregate result is empty and the sum of `fds` over the result (0) differs
from the sum of contributions over the window (`1/200`) by far more than
floating-point error. -/
theorem aggregate_sum_counterexample :
    aggregate_contributions_by_author 90 (1 / 100)
        [⟨"a", 0, 1 / 10, 1 / 20, 5, 1, 0⟩] = [] ∧
      ((windowRows 90 [⟨"a", 0, 1 / 10, 1 / 20, 5, 1, 0⟩]).map contribution).sum = 1 / 200 ∧
      (0 : ℚ) ≠ 1 / 200 := by
  have hw : windowRows 90 [⟨"a", 0, 1 / 10, 1 / 20, 5, 1, 0⟩] =
      [⟨"a", 0, 1 / 10, 1 / 20, 5, 1, 0⟩] := by
    unfold windowRows dataSpanDays endTs startTs listMaxZ listMinZ
    norm_num
  have hc : contribution ⟨"a", 0, 1 / 10, 1 / 20, 5, 1, 0⟩ = 1 / 200 := by
    unfold contribution calculate_contribution
    norm_num
  refine ⟨?_, ?_, by norm_num⟩
  · unfold aggregate_contributions_by_author
    rw [hw]
    have hauth : sortedAuthors [⟨"a", 0, 1 / 10, 1 / 20, 5, 1, 0⟩] = ["a"] := by
      simp [sortedAuthors, insStr]
    rw [hauth]
    have hfds : (mkEntry [⟨"a", 0, 1 / 10, 1 / 20, 5, 1, 0⟩] "a").fds = 1 / 200 := by
      show round4 _ = 1 / 200
      have har : authorRows [⟨"a", 0, 1 / 10, 1 / 20, 5, 1, 0⟩] "a" =
          [⟨"a", 0, 1 / 10, 1 / 20, 5, 1, 0⟩] := by
        unfold authorRows
        simp
      rw [har]
      simp only [List.map_cons, List.map_nil, List.sum_cons, List.sum_nil, hc]
      unfold round4 roundHalfEven
      norm_num
    have hfilter : decide ((1 : ℚ) / 100 ≤ (mkEntry [⟨"a", 0, 1 / 10, 1 / 20, 5, 1, 0⟩] "a").fds)
        = false := by
      rw [decide_eq_false_iff_not, hfds]
      norm_num
    simp only [List.map_cons, List.map_nil, List.filter_cons, List.filter_nil, hfilter]
    rfl
  · rw [hw]
    simp only [List.map_cons, List.map_nil, List.sum_cons, List.sum_nil, hc]
    norm_num

/-- C7 (amended): the sum of `fds` over the aggregate result equals the
sum, over the window's authors whose 4-decimal-rounded contribution total
reaches the threshold, of that rounded total: authors below the threshold
(and the 4-decimal rounding itself) make it differ from the plain sum of
window contributions. -/
theorem aggregate_fds_sum (W : ℕ) (thr : ℚ) (rows : List Row) :
    ((aggregate_contributions_by_author W thr rows).map (·.fds)).sum =
      (((sortedAuthors (windowRows W rows)).filter (fun a =>
          decide (thr ≤ round4 (((authorRows (windowRows W rows) a).map contribution).sum)))).map
        (fun a => round4 (((authorRows (windowRows W rows) a).map contribution).sum))).sum := by
  unfold aggregate_contributions_by_author
  rw [sortByFdsDesc_map_sum]
  rw [List.filter_map (mkEntry (windowRows W rows)) (sortedAuthors (windowRows W rows))]
  rw [List.map_map]
  rfl

/-- C10: every entry of the aggregate result carries the 4-decimal
rounding of the exact aggregates — `fds` is the ROUNDED sum of the author's
window contributions — and the contribution threshold is applied to the
rounded `fds` (rounding happens before the filter and the sort). -/
theorem aggregate_rounds_before_filter (W : ℕ) (thr : ℚ) (rows : List Row) :
    ∀ e ∈ aggregate_contributions_by_author W thr rows,
      e.fds = round4 (((authorRows (windowRows W rows) e.author_email).map contribution).sum) ∧
      thr ≤ e.fds ∧
      e.avg_effort = round4 (((authorRows (windowRows W rows) e.author_email).map
          (·.effort)).sum / ((authorRows (windowRows W rows) e.author_email).length : ℚ)) ∧
      e.total_churn = round4 (((authorRows (windowRows W rows) e.author_email).map
          (·.effective_churn)).sum) ∧
      e.commit_count = (authorRows (windowRows W rows) e.author_email).length := by
  intro e he
  unfold aggregate_contributions_by_author at he
  rw [sortByFdsDesc_mem, List.mem_filter] at he
  rcases he with ⟨hmem, hthr⟩
  rcases List.mem_map.mp hmem with ⟨a, _, rfl⟩
  rw [decide_eq_true_eq] at hthr
  exact ⟨rfl, hthr, rfl, rfl, rfl⟩

/-- Witness for C10: one author, one commit with contribution 1; the
resulting entry's fds is the rounded sum 1 and passes the threshold. -/
theorem aggregate_rounds_before_filter_witness :
    (mkEntry (windowRows 90 [⟨"c", 0, 1, 1, 4, 2, 3⟩]) "c").fds =
        round4 (((authorRows (windowRows 90 [⟨"c", 0, 1, 1, 4, 2, 3⟩]) "c").map
          contribution).sum) ∧
      (1 : ℚ) / 100 ≤ (mkEntry (windowRows 90 [⟨"c", 0, 1, 1, 4, 2, 3⟩]) "c").fds := by
  have hw : windowRows 90 [⟨"c", 0, 1, 1, 4, 2, 3⟩] = [⟨"c", 0, 1, 1, 4, 2, 3⟩] := by
    unfold windowRows dataSpanDays endTs startTs listMaxZ listMinZ
    norm_num
  have hauth : sortedAuthors [⟨"c", 0, 1, 1, 4, 2, 3⟩] = ["c"] := by
    simp [sortedAuthors, insStr]
  have hfds : (mkEntry [⟨"c", 0, 1, 1, 4, 2, 3⟩] "c").fds = 1 := by
    show round4 _ = 1
    have har : authorRows [⟨"c", 0, 1, 1, 4, 2, 3⟩] "c" = [⟨"c", 0, 1, 1, 4, 2, 3⟩] := by
      unfold authorRows
      simp
    rw [har]
    simp only [List.map_cons, List.map_nil, List.sum_cons, List.sum_nil]
    unfold contribution calculate_contribution round4 roundHalfEven
    norm_num
  have hmem : mkEntry (windowRows 90 [⟨"c", 0, 1, 1, 4, 2, 3⟩]) "c" ∈
      aggregate_contributions_by_author 90 (1 / 100) [⟨"c", 0, 1, 1, 4, 2, 3⟩] := by
    unfold aggregate_contributions_by_author
    rw [sortByFdsDesc_mem, List.mem_filter]
    constructor
    · rw [hw, hauth]
      simp
    · rw [decide_eq_true_eq, hw, hfds]
      norm_num
  have h := aggregate_rounds_before_filter 90 (1 / 100) [⟨"c", 0, 1, 1, 4, 2, 3⟩] _ hmem
  exact ⟨h.1, h.2.1⟩

theorem c2_window : windowRows 90 c2rows = c2rows := by
  unfold windowRows dataSpanDays endTs startTs listMaxZ listMinZ c2rows
  norm_num

theorem c2_authors : sortedAuthors c2rows = ["a", "b"] := by
  simp [sortedAuthors, insStr, c2rows]
  decide

theorem c2_fds_a : (mkEntry c2rows "a").fds = 1 / 2 := by
  show round4 _ = 1 / 2
  have har : authorRows c2rows "a" = [⟨"a", 0, 1, 1 / 2, 10, 1, 0⟩] := by
    simp [authorRows, c2rows]
  rw [har]
  simp only [List.map_cons, List.map_nil, List.sum_cons, List.sum_nil]
  unfold contribution calculate_contribution round4 roundHalfEven
  norm_num

theorem c2_fds_b : (mkEntry c2rows "b").fds = 1 / 2 := by
  show round4 _ = 1 / 2
  have har : authorRows c2rows "b" =
      [⟨"b", 0, 1 / 2, 1 / 2, 10, 1, 0⟩, ⟨"b", 0, 1 / 2, 1 / 2, 10, 1, 0⟩] := by
    simp [authorRows, c2rows]
  rw [har]
  simp only [List.map_cons, List.map_nil, List.sum_cons, List.sum_nil]
  unfold contribution calculate_contribution round4 roundHalfEven
  norm_num

theorem c2_count_a : (mkEntry c2rows "a").commit_count = 1 := by
  show (authorRows c2rows "a").length = 1
  simp [authorRows, c2rows]

theorem c2_count_b : (mkEntry c2rows "b").commit_count = 2 := by
  show (authorRows c2rows "b").length = 2
  simp [authorRows, c2rows]

theorem c2_result : aggregate_contributions_by_author 90 (1 / 100) c2rows =
    [mkEntry c2rows "a", mkEntry c2rows "b"] := by
  have hfa : decide ((1 : ℚ) / 100 ≤ (mkEntry c2rows "a").fds) = true := by
    rw [decide_eq_true_eq, c2_fds_a]
    norm_num
  have hfb : decide ((1 : ℚ) / 100 ≤ (mkEntry c2rows "b").fds) = true := by
    rw [decide_eq_true_eq, c2_fds_b]
    norm_num
  have hle : (mkEntry c2rows "b").fds ≤ (mkEntry c2rows "a").fds := by
    rw [c2_fds_a, c2_fds_b]
  unfold aggregate_contributions_by_author
  rw [c2_window, c2_authors]
  simp only [List.map_cons, List.map_nil, List.filter_cons, List.filter_nil, hfa, hfb,
    if_true]
  show insByFds (mkEntry c2rows "a") (insByFds (mkEntry c2rows "b") []) = _
  simp only [insByFds]
  rw [if_pos hle]

/-- C2 counterexample: on `c2rows` the result is `[a, b]` with equal
`fds` and `commit_count` 1 and 2 — the pair violates the claimed tie-break
by `commit_count` descending (which would put `b` first). -/
theorem aggregate_sort_counterexample :
    ¬ (aggregate_contributions_by_author 90 (1 / 100) c2rows).Pairwise
        (fun a b => b.fds < a.fds ∨ (a.fds = b.fds ∧
          (b.commit_count < a.commit_count ∨
            (a.commit_count = b.commit_count ∧ a.author_email ≤ b.author_email)))) := by
  rw [c2_result]
  intro hpw
  have hR := (List.pairwise_cons.mp hpw).1 (mkEntry c2rows "b") (List.mem_cons_self _ _)
  rcases hR with hlt | ⟨_, hcc | ⟨hcc, _⟩⟩
  · rw [c2_fds_a, c2_fds_b] at hlt
    exact lt_irrefl _ hlt
  · rw [c2_count_a, c2_count_b] at hcc
    omega
  · rw [c2_count_a, c2_count_b] at hcc
    omega

/-- C2 (amended): the aggregate result is sorted descending by `fds`
alone; for equal `fds` the entries keep the ascending-`author_email` order
that `groupby` produced (the stable sort never consults `commit_count`). -/
theorem aggregate_sorted (W : ℕ) (thr : ℚ) (rows : List Row) :
    (aggregate_contributions_by_author W thr rows).Pairwise
      (fun a b => b.fds < a.fds ∨ (a.fds = b.fds ∧ a.author_email < b.author_email)) := by
  unfold aggregate_contributions_by_author
  refine sortByFdsDesc_pairwise _ _ ?_
  refine List.Pairwise.filter _ ?_
  rw [List.pairwise_map]
  exact sortedAuthors_pairwise (windowRows W rows)

theorem c3_iter : tcIter [1, 1] 2 [0, 1, 2]
    [(0, [0, 0]), (1, [1, 100]), (2, [2, 1])] [(0, 1), (1, 1), (2, 1)] =
    some ([1], [(1, [1, 101 / 3])], [(1, 3)],
      [⟨5, 0, 2⟩, ⟨9802, 1, 2⟩, ⟨5, 2, 0⟩]) := by
  norm_num [tcIter, directedEdges, nearestIdx, wdistSq, lookupV, lookupM, List.range_succ,
    List.find?, List.filterMap, mergeRoot, unionByMass, rootUpdate, firstDedup,
    List.replicate, List.zipWith]

theorem c3_conns : tcConns [[0, 0], [1, 100], [2, 1]] [1, 1] =
    [⟨5, 0, 2⟩, ⟨9802, 1, 2⟩, ⟨5, 2, 0⟩] := by
  have h0 : ((List.range 3).map
      (fun i => (i, ([[0, 0], [1, 100], [2, 1]] : List (List ℚ)).getD i []))) =
      [(0, [0, 0]), (1, [1, 100]), (2, [2, 1])] := by
    norm_num [List.range_succ]
  have hm : ((List.range 3).map (fun i => (i, (1 : ℚ)))) = [(0, 1), (1, 1), (2, 1)] := by
    norm_num [List.range_succ]
  show tcLoop [1, 1] 2 3 (List.range 3)
      ((List.range 3).map (fun i => (i, ([[0, 0], [1, 100], [2, 1]] : List (List ℚ)).getD i [])))
      ((List.range 3).map (fun i => (i, (1 : ℚ)))) [] = _
  rw [h0, hm]
  rw [show (List.range 3) = [0, 1, 2] from by norm_num [List.range_succ]]
  rw [show (3 : ℕ) = 2 + 1 from rfl]
  rw [tcLoop.eq_def]
  simp only []
  rw [if_neg (by norm_num), c3_iter]
  simp only []
  rw [show (2 : ℕ) = 1 + 1 from rfl]
  rw [tcLoop.eq_def]
  simp only []
  rw [if_pos (by norm_num)]
  simp

theorem c3_labels : torque_clustering [[0, 0], [1, 100], [2, 1]] [1, 1] = [0, 1, 0] := by
  show assignLabels 3 (tcConns [[0, 0], [1, 100], [2, 1]] [1, 1]) = _
  rw [c3_conns]
  have hs : sortConnDesc [⟨5, 0, 2⟩, ⟨9802, 1, 2⟩, ⟨5, 2, 0⟩] =
      [⟨9802, 1, 2⟩, ⟨5, 0, 2⟩, ⟨5, 2, 0⟩] := by
    norm_num [sortConnDesc, insConn]
  have ht : tgapsOf [⟨9802, 1, 2⟩, ⟨5, 0, 2⟩, ⟨5, 2, 0⟩] = [some (9802 / 5), some 1] := by
    norm_num [tgapsOf, List.range_succ]
  have ha : argmaxTgap [some (9802 / 5), some 1] = 0 := by
    norm_num [argmaxTgap, List.enum, tgapGt, List.enumFrom]
  unfold assignLabels
  rw [if_neg (by norm_num), hs, ht, ha]
  norm_num [List.range_succ, finalUnion, rootUpdate, denseLabels, firstDedup]

/-- C3 counterexample: three chronologically ordered commits with
features `(timestamp, loc)` = `(0,0), (1,100), (2,1)` and unit feature
weights cluster into batches `[0, 1, 0]`: the first and third commit share
a batch while the middle one does not, so batch 0 is NOT a contiguous
interval of the chronological order. -/
theorem torque_clustering_counterexample :
    torque_clustering [[0, 0], [1, 100], [2, 1]] [1, 1] = [0, 1, 0] ∧
      (torque_clustering [[0, 0], [1, 100], [2, 1]] [1, 1]).getD 0 0 =
        (torque_clustering [[0, 0], [1, 100], [2, 1]] [1, 1]).getD 2 0 ∧
      (torque_clustering [[0, 0], [1, 100], [2, 1]] [1, 1]).getD 1 0 ≠
        (torque_clustering [[0, 0], [1, 100], [2, 1]] [1, 1]).getD 0 0 := by
  refine ⟨c3_labels, ?_, ?_⟩ <;> rw [c3_labels] <;> decide

theorem firstDedup_go_eq_of_nodup [DecidableEq α] (l acc : List α) (h : (acc ++ l).Nodup) :
    List.foldl (fun acc x => if x ∈ acc then acc else acc ++ [x]) acc l = acc ++ l := by
  induction l generalizing acc with
  | nil => simp
  | cons x t ih =>
      have hx : x ∉ acc := by
        rcases List.nodup_append.mp h with ⟨_, _, hdisj⟩
        intro hmem
        exact hdisj hmem (List.mem_cons_self _ _)
      simp only [List.foldl_cons, if_neg hx]
      rw [ih (acc ++ [x]) (by simpa [List.append_assoc] using h)]
      simp

theorem firstDedup_of_nodup [DecidableEq α] (l : List α) (h : l.Nodup) :
    firstDedup l = l := by
  have := firstDedup_go_eq_of_nodup l [] (by simpa using h)
  simpa [firstDedup] using this

theorem denseLabels_length (roots : List ℕ) :
    (denseLabels roots).length = roots.length := by
  simp [denseLabels]

theorem denseLabels_lt (roots : List ℕ) (l : ℕ) (hl : l ∈ denseLabels roots) :
    l < (firstDedup roots).length := by
  rcases List.mem_map.mp hl with ⟨r, hr, rfl⟩
  exact List.indexOf_lt_length.mpr ((firstDedup_mem roots r).mpr hr)

theorem denseLabels_surj (roots : List ℕ) (k : ℕ) (hk : k < (firstDedup roots).length) :
    k ∈ denseLabels roots := by
  refine List.mem_map.mpr ⟨(firstDedup roots).get ⟨k, hk⟩, ?_, ?_⟩
  · exact (firstDedup_mem roots _).mp (List.get_mem _ _ hk)
  · exact List.indexOf_getElem (firstDedup_nodup roots) k hk

theorem denseLabels_distinct_count (roots : List ℕ) :
    (firstDedup (denseLabels roots)).length = (firstDedup roots).length := by
  have hnd := firstDedup_nodup (denseLabels roots)
  have hmem : ∀ y, y ∈ firstDedup (denseLabels roots) ↔ y < (firstDedup roots).length := by
    intro y
    rw [firstDedup_mem]
    exact ⟨fun h => denseLabels_lt roots y h, fun h => denseLabels_surj roots y h⟩
  have hfin : (firstDedup (denseLabels roots)).toFinset =
      Finset.range (firstDedup roots).length := by
    ext y
    simp [List.mem_toFinset, hmem y, Finset.mem_range]
  have hcard := List.toFinset_card_of_nodup hnd
  rw [hfin, Finset.card_range] at hcard
  omega

/-- C3 (amended): for every input, the labels of `torque_clustering`
form a contiguous range `[0, K−1]` with `K ≤ |commits|` (one label per
commit, every label below the number `K` of distinct labels, every value
below `K` attained).  The within-batch contiguity part of the claim is
false (see the counterexample): this clusterer can interleave batches. -/
theorem torque_clustering_labels_range (X : List (List ℚ)) (w : List ℚ) :
    (torque_clustering X w).length = X.length ∧
    (firstDedup (torque_clustering X w)).length ≤ X.length ∧
    (∀ l ∈ torque_clustering X w, l < (firstDedup (torque_clustering X w)).length) ∧
    (∀ k, k < (firstDedup (torque_clustering X w)).length → k ∈ torque_clustering X w) := by
  unfold torque_clustering assignLabels
  by_cases hempty : (tcConns X w).isEmpty = true
  · rw [if_pos hempty]
    have hdedup : firstDedup (List.range X.length) = List.range X.length :=
      firstDedup_of_nodup _ (List.nodup_range _)
    refine ⟨List.length_range _, ?_, ?_, ?_⟩
    · rw [hdedup, List.length_range]
    · intro l hl
      rw [hdedup, List.length_range]
      exact List.mem_range.mp hl
    · intro k hk
      rw [hdedup, List.length_range] at hk
      exact List.mem_range.mpr hk
  · rw [if_neg hempty]
    set roots := (List.range X.length).map
      (((sortConnDesc (tcConns X w)).drop
          (argmaxTgap (tgapsOf (sortConnDesc (tcConns X w))) + 1)).foldl
        (fun p c => finalUnion p c.cid c.nid) id) with hroots
    have hrlen : roots.length = X.length := by
      rw [hroots, List.length_map, List.length_range]
    have hKeq := denseLabels_distinct_count roots
    refine ⟨?_, ?_, ?_, ?_⟩
    · rw [denseLabels_length, hrlen]
    · rw [hKeq]
      calc (firstDedup roots).length ≤ roots.length := firstDedup_length_le roots
        _ = X.length := hrlen
    · intro l hl
      rw [hKeq]
      exact denseLabels_lt roots l hl
    · intro k hk
      rw [hKeq] at hk
      exact denseLabels_surj roots k hk

theorem c3_single : torque_clustering [[(5 : ℚ)]] [1] = [0] := by
  have hconns : tcConns [[(5 : ℚ)]] [1] = [] := by
    show tcLoop [1] 1 1 (List.range 1)
        ((List.range 1).map (fun i => (i, ([[(5 : ℚ)]] : List (List ℚ)).getD i [])))
        ((List.range 1).map (fun i => (i, (1 : ℚ)))) [] = _
    rw [show (1 : ℕ) = 0 + 1 from rfl]
    rw [tcLoop.eq_def]
    simp
  show assignLabels 1 (tcConns [[(5 : ℚ)]] [1]) = _
  rw [hconns]
  simp [assignLabels, List.range_succ]

/-- Witness for C3 (amended): a single commit gets label 0, the one value
below `K = 1`. -/
theorem torque_clustering_labels_range_witness :
    (0 : ℕ) ∈ torque_clustering [[(5 : ℚ)]] [1] ∧
      (firstDedup (torque_clustering [[(5 : ℚ)]] [1])).length ≤ 1 := by
  have h := torque_clustering_labels_range [[(5 : ℚ)]] [1]
  refine ⟨h.2.2.2 0 ?_, by simpa using h.2.1⟩
  rw [c3_single]
  decide

end FDS
